import Mathlib

/-!
# Verification of the cudf transpose engine and mask_to_bools

Shallow embedding of `cpp/src/transform/mask_to_bools.cu`:
* `mask_to_bools` — unpack a bit-packed validity mask range into a dense
  boolean column (`cudf::detail::mask_to_bools`),
* `gpu_transpose` — the strided 2-D value-transpose kernel, modelled as the
  multiset of writes performed by every worker of the launched grid,
* `gpu_transpose_valids` — the warp-collective validity-transpose kernel
  (`__ballot_sync` votes, one mask-word write per band per row by lane 0,
  atomic accumulation of per-output-column null counts),
* `transpose` — the host-side engine (`cudf::detail::transpose`): emptiness
  shortcut, homogeneity and fixed-width checks, all-or-nothing mask policy,
  output allocation, kernel dispatch, null-count finalization.

Machine integers are modelled as `Nat`; the 32-bit mask words produced by the
ballot model are below `2 ^ 32` by construction.
-/

namespace Cudf

/-- Element type tags, as in `cudf::type_id` (a representative subset;
`STRING` is the variable-width representative). -/
inductive DType where
  | INT8 | INT32 | INT64 | BOOL8 | STRING
  deriving DecidableEq, Repr

/-- `cudf::is_fixed_width`: every modelled type except `STRING`. -/
def DType.is_fixed_width : DType → Bool
  | .STRING => false
  | _ => true

/-- A column: an element-type tag, the element payload, an optional validity
mask (bit `j` corresponds to element `j`; `true` = valid), and the stored
null count (`cudf::column::null_count`, set by `set_null_count`). -/
structure Column (α : Type) where
  dtype : DType
  data : List α
  mask : Option (List Bool)
  null_count : Nat
  deriving DecidableEq, Repr

/-- `column_device_view::is_valid(j)`: `true` when no mask is present,
otherwise the mask bit at `j`. -/
def Column.is_valid {α : Type} (c : Column α) (j : Nat) : Bool :=
  match c.mask with
  | none => true
  | some m => m.getD j false

/-- An ordered sequence of columns (`cudf::table_view`). -/
structure Table (α : Type) where
  cols : List (Column α)
  deriving DecidableEq, Repr

/-- `table_view::num_rows`: the size of the first column (0 for no columns). -/
def Table.num_rows {α : Type} (t : Table α) : Nat :=
  match t.cols with
  | [] => 0
  | c :: _ => c.data.length

/-- `table_view::column(i)` (out-of-range access yields a dummy column). -/
def Table.column {α : Type} (t : Table α) (i : Nat) : Column α :=
  t.cols.getD i ⟨DType.STRING, [], none, 0⟩

/-- `cudf::column_view::has_nulls`: nonzero stored null count. -/
def Column.has_nulls {α : Type} (c : Column α) : Bool :=
  decide (0 < c.null_count)

/-- `cudf::has_nulls(table_view)`: some column has nulls. -/
def has_nulls {α : Type} (t : Table α) : Bool :=
  t.cols.any Column.has_nulls

/-- Number of indices `< n` satisfying `p` (helper counter used to state
null-count facts; mirrors counting set/unset bits over an index range). -/
def cntN (n : Nat) (p : Nat → Bool) : Nat :=
  (List.range n).countP p

/-- Total null elements of a table: per column, the elements whose validity
bit is unset. -/
def Table.total_null_count {α : Type} (t : Table α) : Nat :=
  (t.cols.map fun c => cntN c.data.length fun j => ! c.is_valid j).sum

/-- Error taxonomy of the two entry points (§7 of the design). -/
inductive CudfError where
  | InvalidArgument | TypeMismatch | UnsupportedType
  deriving DecidableEq, Repr

/-- `cudf::bit_is_set` over a word array: bit `i % 32` of word `i / 32`. -/
def bit_is_set (bitmask : List Nat) (i : Nat) : Bool :=
  (bitmask.getD (i / 32) 0).testBit (i % 32)

/-- The column built by `mask_to_bools` on the non-degenerate path: a BOOL8
column of the requested length, no mask, `output[k] = bit_is_set(mask, offset+k)`
(the `thrust::transform` over a counting iterator). -/
def mask_to_bools_ok (bm : List Nat) (offset length : Nat) : Column Bool :=
  { dtype := DType.BOOL8
    data := (List.range length).map fun index => bit_is_set bm (offset + index)
    mask := none
    null_count := 0 }

/-- `cudf::detail::mask_to_bools`: length 0 returns an empty BOOL8 column
without touching the mask; a null mask with positive length is rejected;
otherwise each output position is the corresponding mask bit. -/
def mask_to_bools (bitmask : Option (List Nat)) (offset length : Nat) :
    Except CudfError (Column Bool) :=
  if length = 0 then
    Except.ok { dtype := DType.BOOL8, data := [], mask := none, null_count := 0 }
  else
    match bitmask with
    | none => Except.error CudfError.InvalidArgument
    | some bm => Except.ok (mask_to_bools_ok bm offset length)

/-! ## The value-transpose kernel `gpu_transpose`

`WARP_SIZE = 32`, `MAX_GRID_SIZE = (1<<16)-1 = 65535`, `dimBlock = (32, 32)`,
`dimGrid = (min(ceil(ncols/32), 65535), min(ceil(nrows/32), 65535))`.
A worker at global position `(x, y)` (`x < stride_x`, `y < stride_y`, where
`stride_x = blockDim.x * gridDim.x` and likewise `stride_y`) iterates
`i = x, x + stride_x, ...` over columns and `j = y, y + stride_y, ...` over
rows, writing `output.column(j).element(i) = input.column(i).element(j)`. -/

/-- `util::div_rounding_up_safe(n, d)`. -/
def divRoundingUp (n d : Nat) : Nat := (n + d - 1) / d

/-- The index sequence of a strided device loop
`for (i = start; i < bound; i += stride)` (all launched strides are
positive; a zero stride yields the empty sequence). -/
def stridedLoop (start bound stride : Nat) : List Nat :=
  if _h : start < bound ∧ 0 < stride then
    start :: stridedLoop (start + stride) bound stride
  else
    []
termination_by bound - start
decreasing_by omega

/-- The `(i, j)` pairs written by the worker at global position `(x, y)`:
column loop outside, row loop inside. -/
def workerWrites (ncols nrows sx sy x y : Nat) : List (Nat × Nat) :=
  (stridedLoop x ncols sx).flatMap fun i =>
    (stridedLoop y nrows sy).map fun j => (i, j)

/-- All `(i, j)` pairs written over the whole grid of `sx * sy` workers. -/
def allWrites (ncols nrows sx sy : Nat) : List (Nat × Nat) :=
  (List.range sx).flatMap fun x =>
    (List.range sy).flatMap fun y => workerWrites ncols nrows sx sy x y

/-- Apply one value-kernel write: `output.column(j).element(i) = input(i)(j)`.
The output state is a function `j ↦ i ↦ value`. -/
def applyValueWrite {α : Type} (input : Nat → Nat → α) (out : Nat → Nat → α)
    (p : Nat × Nat) : Nat → Nat → α :=
  fun j i => if j = p.2 ∧ i = p.1 then input p.1 p.2 else out j i

/-- Final output state of `gpu_transpose` launched with strides `sx, sy`. -/
def gpu_transpose_run {α : Type} (input : Nat → Nat → α)
    (ncols nrows sx sy : Nat) (out0 : Nat → Nat → α) : Nat → Nat → α :=
  (allWrites ncols nrows sx sy).foldl (applyValueWrite input) out0

/-! ## The validity-transpose kernel `gpu_transpose_valids`

Warps (32 lanes) are identified by a column-band block index `bx < gridDim.x`
and a global row `y0 < stride_y`.  Lane `l` of warp `bx` is responsible for
columns `32*bx + l, 32*(bx + gridDim.x) + l, ...`; all lanes of a warp share
the row sequence `y0, y0 + stride_y, ...`.  Per band and row: a ballot of the
validity bits of the active lanes forms the output mask word, lane 0 writes it at
word index `i / 32` of output column `j` and atomically adds
`popc(active) - popc(result)` to the null-count slot of column `j`. -/

/-- Little-endian bit packing of a boolean list into a `Nat`. -/
def packBits : List Bool → Nat
  | [] => 0
  | b :: bs => (if b then 1 else 0) + 2 * packBits bs

/-- `__popc`: number of set bits. -/
def popc (n : Nat) : Nat :=
  if n = 0 then 0 else n % 2 + popc (n / 2)
decreasing_by omega

/-- `__ballot_sync(mask, pred)`: one word whose bit `l` is set exactly when
lane `l` is in `mask` and its predicate holds. -/
def ballot32 (mask : Nat) (pred : Nat → Bool) : Nat :=
  packBits ((List.range 32).map fun l => mask.testBit l && pred l)

/-- The all-lanes sync mask `0xffffffff`. -/
def fullMask : Nat := 4294967295

/-- The active-lane mask of the band with base column `b`: lanes standing on
a real input column. -/
def activeMask (ncols b : Nat) : Nat :=
  ballot32 fullMask fun l => decide (b + l < ncols)

/-- The mask word balloted for band `w` (base column `32*w`) at row `j`. -/
def resWord (valid : Nat → Nat → Bool) (ncols w j : Nat) : Nat :=
  ballot32 (activeMask ncols (32 * w)) fun l => valid (32 * w + l) j

/-- The `num_nulls` value lane 0 adds for band `w` at row `j`:
`__popc(active_threads) - __popc(result)`. -/
def wordNulls (valid : Nat → Nat → Bool) (ncols w j : Nat) : Nat :=
  popc (activeMask ncols (32 * w)) - popc (resWord valid ncols w j)

/-- One validity-kernel write record: `(row j, word index w, mask word,
nulls added)`. -/
abbrev ValidWrite : Type := Nat × Nat × Nat × Nat

/-- The band loop of one warp of `gpu_transpose_valids`: while the column
`32*w` of lane 0 is in range, emit for every row `j` of the strided row
sequence of the warp the balloted word and its null contribution, then
advance the band by `G` words, re-balloting the active mask among the
currently active lanes. -/
def warpValidsLoop (valid : Nat → Nat → Bool) (ncols nrows sy y0 G : Nat)
    (active w : Nat) : List ValidWrite :=
  if _h : 32 * w < ncols ∧ 0 < G then
    ((stridedLoop y0 nrows sy).map fun j =>
      (j, w, ballot32 active fun l => valid (32 * w + l) j,
        popc active - popc (ballot32 active fun l => valid (32 * w + l) j)))
      ++ warpValidsLoop valid ncols nrows sy y0 G
          (ballot32 active fun l => decide (32 * (w + G) + l < ncols)) (w + G)
  else
    []
termination_by ncols - 32 * w
decreasing_by omega

/-- The writes of one warp, starting from the initial full-mask ballot
`__ballot_sync(0xffffffff, i < ncols)` at band `bx`. -/
def warpValidsRun (valid : Nat → Nat → Bool) (ncols nrows sy G bx y0 : Nat) :
    List ValidWrite :=
  warpValidsLoop valid ncols nrows sy y0 G
    (ballot32 fullMask fun l => decide (32 * bx + l < ncols)) bx

/-- All writes of `gpu_transpose_valids` over the grid: warps are indexed by
band block `bx < G = gridDim.x` and global row `y0 < sy = 32 * gridDim.y`. -/
def validsAllWrites (valid : Nat → Nat → Bool) (ncols nrows G sy : Nat) :
    List ValidWrite :=
  (List.range G).flatMap fun bx =>
    (List.range sy).flatMap fun y0 => warpValidsRun valid ncols nrows sy G bx y0

/-- Apply the mask-word writes (`set_mask_word`) to an output mask state
`j ↦ w ↦ word`. -/
def applyValidsWrites (ws : List ValidWrite) (m0 : Nat → Nat → Nat) :
    Nat → Nat → Nat :=
  ws.foldl (fun m wr => fun j w =>
    if j = wr.1 ∧ w = wr.2.1 then wr.2.2.1 else m j w) m0

/-- Final output mask words of the validity kernel (over zeroed words). -/
def finalMaskWords (valid : Nat → Nat → Bool) (ncols nrows G sy : Nat) :
    Nat → Nat → Nat :=
  applyValidsWrites (validsAllWrites valid ncols nrows G sy) (fun _ _ => 0)

/-- Final accumulator state: the `atomicAdd(null_count + j, num_nulls)`
contributions folded over a zero-initialized buffer. -/
def nullAccum (ws : List ValidWrite) : Nat → Nat :=
  ws.foldl (fun acc wr => fun j =>
    if j = wr.1 then acc j + wr.2.2.2 else acc j) (fun _ => 0)

/-! ## The host engine `cudf::detail::transpose` -/

/-- `MAX_GRID_SIZE`. -/
def MAX_GRID_SIZE : Nat := 65535

/-- Read bit `i` of the stored validity mask of a column (false when the
mask is absent). -/
def Column.mask_bit {α : Type} (c : Column α) (i : Nat) : Bool :=
  (c.mask.getD []).getD i false

/-- The input-element accessor the kernels use:
`input.column(i).element<T>(j)`. -/
def tableVals {α : Type} (dflt : α) (T : Table α) : Nat → Nat → α :=
  fun i j => (T.column i).data.getD j dflt

/-- The input-validity accessor the kernels use:
`input.column(i).is_valid(j)`. -/
def tableValids {α : Type} (T : Table α) : Nat → Nat → Bool :=
  fun i j => (T.column i).is_valid j

/-- `dimGrid.x = min(div_rounding_up_safe(num_columns, WARP_SIZE), MAX_GRID_SIZE)`. -/
def gridX {α : Type} (T : Table α) : Nat :=
  min (divRoundingUp T.cols.length 32) MAX_GRID_SIZE

/-- `dimGrid.y = min(div_rounding_up_safe(num_rows, WARP_SIZE), MAX_GRID_SIZE)`. -/
def gridY {α : Type} (T : Table α) : Nat :=
  min (divRoundingUp T.num_rows 32) MAX_GRID_SIZE

/-- Output column `j` of the transpose on the success path: allocated like
the first input column (`allocate_like(first, output_nrows, policy)`) with
the all-or-nothing mask policy, filled by `gpu_transpose` (strides
`32 * dimGrid`), its mask words written by `gpu_transpose_valids`, and its
null count set from the accumulator (`set_null_count(null_counts[j])`). -/
def outColumn {α : Type} (dflt : α) (T : Table α) (j : Nat) : Column α :=
  { dtype := (T.column 0).dtype
    data := (List.range T.cols.length).map fun i =>
      gpu_transpose_run (tableVals dflt T) T.cols.length T.num_rows
        (32 * gridX T) (32 * gridY T) (fun _ _ => dflt) j i
    mask := if has_nulls T then
        some ((List.range T.cols.length).map fun i =>
          (finalMaskWords (tableValids T) T.cols.length T.num_rows (gridX T)
            (32 * gridY T) j (i / 32)).testBit (i % 32))
      else none
    null_count := if has_nulls T then
        nullAccum (validsAllWrites (tableValids T) T.cols.length T.num_rows
          (gridX T) (32 * gridY T)) j
      else 0 }

/-- The output table built on the success path of `detail::transpose`:
`output_ncols = input_nrows` columns, each of `output_nrows = input_ncols`
elements. -/
def transposeBody {α : Type} (dflt : α) (input : Table α) : Table α :=
  Table.mk ((List.range input.num_rows).map fun j => outColumn dflt input j)

/-- `cudf::detail::transpose`: empty input shortcut, dtype homogeneity check
(`Column type mismatch`), fixed-width check (`Invalid, non-fixed-width
type.`), then the transposed output. -/
def transpose {α : Type} (dflt : α) (input : Table α) :
    Except CudfError (Table α) :=
  if input.cols.length = 0 ∨ input.num_rows = 0 then
    Except.ok (Table.mk [])
  else
    let dtype := (input.column 0).dtype
    if input.cols.all fun c => decide (c.dtype = dtype) then
      if dtype.is_fixed_width then
        Except.ok (transposeBody dflt input)
      else
        Except.error CudfError.UnsupportedType
    else
      Except.error CudfError.TypeMismatch

/-! ## Concrete fixtures (the worked examples of §8) -/

/-- Example table: 2 columns x 3 rows, values [[1,2,3],[4,5,6]], no nulls. -/
def exTable : Table Nat :=
  Table.mk [Column.mk DType.INT32 [1, 2, 3] none 0,
    Column.mk DType.INT32 [4, 5, 6] none 0]

/-- Example table with one null: column 0 row 1 invalid. -/
def exTableN : Table Nat :=
  Table.mk [Column.mk DType.INT32 [1, 2, 3] (some [true, false, true]) 1,
    Column.mk DType.INT32 [4, 5, 6] none 0]

/-- Degenerate table: one column, zero rows. -/
def exTable0 : Table Nat := Table.mk [Column.mk DType.INT32 [] none 0]

/-- Mismatched element types. -/
def exTableMis : Table Nat :=
  Table.mk [Column.mk DType.INT32 [1] none 0, Column.mk DType.INT64 [2] none 0]

/-- Variable-width element type. -/
def exTableStr : Table Nat := Table.mk [Column.mk DType.STRING [1] none 0]

/-- Example validity predicate for exercising the kernel model directly. -/
def exValid : Nat → Nat → Bool := fun i j => decide ((i + j) % 2 = 0)

/-! ## Bit-level lemmas: `packBits`, `popc`, `ballot32`, `activeMask` -/

theorem packBits_lt (bs : List Bool) : packBits bs < 2 ^ bs.length := by
  induction bs with
  | nil => simp [packBits]
  | cons b bs ih =>
    simp only [packBits, List.length_cons, pow_succ]
    cases b <;> simp <;> omega

theorem testBit_packBits (bs : List Bool) (l : Nat) :
    (packBits bs).testBit l = bs.getD l false := by
  induction bs generalizing l with
  | nil => simp [packBits, Nat.zero_testBit]
  | cons b bs ih =>
    cases l with
    | zero =>
      rw [packBits, Nat.testBit_zero]
      cases b
      · simp
      · simp
    | succ l =>
      rw [packBits, Nat.testBit_succ]
      have hdiv : ((if b then 1 else 0) + 2 * packBits bs) / 2 = packBits bs := by
        cases b
        · simp
        · simp
          omega
      rw [hdiv, ih]
      simp

theorem count_true_of_packBits_eq_zero (bs : List Bool) (h : packBits bs = 0) :
    bs.count true = 0 := by
  induction bs with
  | nil => simp
  | cons b bs ih =>
    rw [packBits] at h
    have hb : b = false := by
      cases b
      · rfl
      · rw [if_pos rfl] at h
        omega
    subst hb
    have : packBits bs = 0 := by omega
    simpa using ih this

theorem popc_packBits (bs : List Bool) : popc (packBits bs) = bs.count true := by
  induction bs with
  | nil => simp [packBits, popc]
  | cons b bs ih =>
    cases b with
    | false =>
      rw [packBits]
      simp only [if_neg (by simp : ¬ (false = true))]
      by_cases h0 : packBits bs = 0
      · rw [h0]
        simp [popc, List.count_cons, count_true_of_packBits_eq_zero bs h0]
      · rw [popc]
        have hne : 0 + 2 * packBits bs ≠ 0 := by omega
        rw [if_neg hne]
        have h1 : (0 + 2 * packBits bs) % 2 = 0 := by omega
        have h2 : (0 + 2 * packBits bs) / 2 = packBits bs := by omega
        rw [h1, h2, ih, List.count_cons]
        simp
    | true =>
      rw [packBits]
      norm_num
      rw [popc]
      have hne : (1 : Nat) + 2 * packBits bs ≠ 0 := by omega
      rw [if_neg hne]
      have h1 : ((1 : Nat) + 2 * packBits bs) % 2 = 1 := by omega
      have h2 : ((1 : Nat) + 2 * packBits bs) / 2 = packBits bs := by omega
      rw [h1, h2, ih]
      omega

theorem getD_map_range {β : Type} (n : Nat) (f : Nat → β) (l : Nat) (d : β)
    (hl : l < n) : ((List.range n).map f).getD l d = f l := by
  rw [List.getD_eq_getElem _ _ (by simpa using hl)]
  simp

theorem testBit_ballot32 (m : Nat) (p : Nat → Bool) (l : Nat) (hl : l < 32) :
    (ballot32 m p).testBit l = (m.testBit l && p l) := by
  rw [ballot32, testBit_packBits, getD_map_range _ _ _ _ hl]

theorem ballot32_lt (m : Nat) (p : Nat → Bool) : ballot32 m p < 2 ^ 32 := by
  have h := packBits_lt ((List.range 32).map fun l => m.testBit l && p l)
  simpa [ballot32] using h

theorem testBit_ballot32_ge (m : Nat) (p : Nat → Bool) (l : Nat) (hl : 32 ≤ l) :
    (ballot32 m p).testBit l = false := by
  rw [ballot32, testBit_packBits]
  apply List.getD_eq_default
  simpa using hl

theorem popc_ballot32 (m : Nat) (p : Nat → Bool) :
    popc (ballot32 m p) = cntN 32 fun l => m.testBit l && p l := by
  rw [ballot32, popc_packBits, cntN]
  rw [List.count, List.countP_map]
  apply List.countP_congr
  intro a _
  simp

theorem testBit_fullMask (l : Nat) : fullMask.testBit l = decide (l < 32) := by
  have h : fullMask = 2 ^ 32 - 1 := by norm_num [fullMask]
  rw [h, Nat.testBit_two_pow_sub_one]

theorem testBit_activeMask (ncols b l : Nat) (hl : l < 32) :
    (activeMask ncols b).testBit l = decide (b + l < ncols) := by
  rw [activeMask, testBit_ballot32 _ _ _ hl, testBit_fullMask]
  simp [hl]

theorem popc_activeMask (ncols b : Nat) :
    popc (activeMask ncols b) = cntN 32 fun l => decide (b + l < ncols) := by
  rw [activeMask, popc_ballot32, cntN, cntN]
  apply List.countP_congr
  intro l hml
  rw [List.mem_range] at hml
  simp [testBit_fullMask, hml]

theorem testBit_resWord (valid : Nat → Nat → Bool) (ncols w j l : Nat)
    (hl : l < 32) :
    (resWord valid ncols w j).testBit l =
      (decide (32 * w + l < ncols) && valid (32 * w + l) j) := by
  rw [resWord, testBit_ballot32 _ _ _ hl, testBit_activeMask _ _ _ hl]

theorem popc_resWord (valid : Nat → Nat → Bool) (ncols w j : Nat) :
    popc (resWord valid ncols w j) =
      cntN 32 fun l => decide (32 * w + l < ncols) && valid (32 * w + l) j := by
  rw [resWord, popc_ballot32, cntN, cntN]
  apply List.countP_congr
  intro l hml
  rw [List.mem_range] at hml
  rw [testBit_activeMask _ _ _ hml]

theorem cntN_and_split (n : Nat) (p q : Nat → Bool) :
    cntN n p = cntN n (fun l => p l && q l) + cntN n (fun l => p l && !q l) := by
  induction n with
  | zero => simp [cntN]
  | succ n ih =>
    simp only [cntN, List.range_succ, List.countP_append] at ih ⊢
    cases hp : p n <;> cases hq : q n <;>
      simp [List.countP_cons, hp, hq] <;> omega

theorem cntN_mono_le (n : Nat) (p q : Nat → Bool)
    (h : ∀ l, p l = true → q l = true) : cntN n p ≤ cntN n q := by
  apply List.countP_mono_left
  intro l _
  exact h l

theorem wordNulls_eq (valid : Nat → Nat → Bool) (ncols w j : Nat) :
    wordNulls valid ncols w j =
      cntN 32 fun l => decide (32 * w + l < ncols) && ! valid (32 * w + l) j := by
  rw [wordNulls, popc_activeMask, popc_resWord]
  have hsplit := cntN_and_split 32 (fun l => decide (32 * w + l < ncols))
    (fun l => valid (32 * w + l) j)
  omega

/-! ## Strided-loop coverage: each index in range is visited exactly once
across the grid -/

theorem count_stridedLoop (start bound stride i : Nat) (hs : 0 < stride) :
    (stridedLoop start bound stride).count i =
      if start ≤ i ∧ i < bound ∧ (i - start) % stride = 0 then 1 else 0 := by
  rw [stridedLoop]
  by_cases hlt : start < bound
  · rw [dif_pos ⟨hlt, hs⟩, List.count_cons,
      count_stridedLoop (start + stride) bound stride i hs]
    by_cases heq : start = i
    · subst heq
      have h1 : ¬ (start + stride ≤ start ∧ start < bound ∧
          (start - (start + stride)) % stride = 0) := by omega
      rw [if_neg h1]
      simp [hlt]
    · have hbeq : (start == i) = false := by
        simp only [beq_eq_false_iff_ne, ne_eq]
        exact heq
      rw [hbeq]
      simp only [Bool.false_eq_true, if_false, Nat.add_zero]
      by_cases hc : start + stride ≤ i ∧ i < bound ∧ (i - (start + stride)) % stride = 0
      · rw [if_pos hc, if_pos ?_]
        obtain ⟨h1, h2, h3⟩ := hc
        have hd : stride ∣ (i - (start + stride)) := Nat.dvd_of_mod_eq_zero h3
        obtain ⟨k, hk⟩ := hd
        have hik : i - start = stride * (k + 1) := by
          rw [Nat.mul_add, Nat.mul_one]
          omega
        refine ⟨by omega, h2, ?_⟩
        rw [hik]
        exact Nat.mul_mod_right stride (k + 1)
      · rw [if_neg hc, if_neg ?_]
        rintro ⟨h1, h2, h3⟩
        apply hc
        have hd : stride ∣ (i - start) := Nat.dvd_of_mod_eq_zero h3
        obtain ⟨k, hk⟩ := hd
        have hkpos : 0 < k := by
          rcases Nat.eq_zero_or_pos k with hk0 | hk0
          · exfalso
            apply heq
            rw [hk0, Nat.mul_zero] at hk
            omega
          · exact hk0
        have hsk : stride ≤ stride * k := Nat.le_mul_of_pos_right stride hkpos
        have hmul : stride * k = stride * (k - 1) + stride := by
          cases k with
          | zero => omega
          | succ m => rw [Nat.mul_succ]; simp
        refine ⟨by omega, h2, ?_⟩
        have hik : i - (start + stride) = stride * (k - 1) := by omega
        rw [hik]
        exact Nat.mul_mod_right stride (k - 1)
  · have hfalse : ¬ (start ≤ i ∧ i < bound ∧ (i - start) % stride = 0) := by
      rintro ⟨ha, hb, -⟩
      omega
    rw [dif_neg (by omega), if_neg hfalse]
    simp
termination_by bound - start
decreasing_by omega

theorem lt_of_mem_stridedLoop {start bound stride x : Nat}
    (h : x ∈ stridedLoop start bound stride) : x < bound := by
  rw [stridedLoop] at h
  by_cases hlt : start < bound ∧ 0 < stride
  · rw [dif_pos hlt] at h
    rcases List.mem_cons.mp h with h1 | h1
    · omega
    · exact lt_of_mem_stridedLoop h1
  · rw [dif_neg hlt] at h
    simp at h
termination_by bound - start
decreasing_by omega

theorem self_mem_stridedLoop (s bound i : Nat) (hs : 0 < s) (hi : i < bound) :
    i ∈ stridedLoop (i % s) bound s := by
  rw [← List.count_pos_iff]
  rw [count_stridedLoop _ _ _ _ hs]
  have hle : i % s ≤ i := Nat.mod_le i s
  have hmod : (i - i % s) % s = 0 := by
    have hdm := Nat.mod_add_div i s
    have : i - i % s = s * (i / s) := by omega
    rw [this]
    exact Nat.mul_mod_right s (i / s)
  rw [if_pos ⟨hle, hi, hmod⟩]
  omega

theorem sum_count_stridedLoop (s bound i : Nat) (hs : 0 < s) (hi : i < bound) :
    ∑ x ∈ Finset.range s, (stridedLoop x bound s).count i = 1 := by
  have h1 : ∀ x ∈ Finset.range s,
      (stridedLoop x bound s).count i = if x = i % s then 1 else 0 := by
    intro x hx
    rw [Finset.mem_range] at hx
    rw [count_stridedLoop _ _ _ _ hs]
    apply if_congr _ rfl rfl
    constructor
    · intro ⟨hle, _, hmod⟩
      have hd : s ∣ (i - x) := Nat.dvd_of_mod_eq_zero hmod
      obtain ⟨k, hk⟩ := hd
      have hik : i = x + s * k := by omega
      rw [hik, Nat.add_mul_mod_self_left, Nat.mod_eq_of_lt hx]
    · intro hxe
      subst hxe
      have hdm := Nat.mod_add_div i s
      refine ⟨Nat.mod_le i s, hi, ?_⟩
      have : i - i % s = s * (i / s) := by omega
      rw [this]
      exact Nat.mul_mod_right s (i / s)
  rw [Finset.sum_congr rfl h1, Finset.sum_ite_eq' (Finset.range s) (i % s) fun _ => 1]
  rw [if_pos (Finset.mem_range.mpr (Nat.mod_lt i hs))]

/-! ## Exactly-once coverage of the value kernel -/

theorem count_pair_map (iv i j : Nat) (l : List Nat) :
    ((l.map fun j2 => (iv, j2)).count (i, j)) =
      if iv = i then l.count j else 0 := by
  induction l with
  | nil => simp
  | cons a t ih =>
    simp only [List.map_cons, List.count_cons, ih]
    by_cases hiv : iv = i
    · subst hiv
      by_cases ha : a = j
      · subst ha
        simp
      · have h1 : ((iv, a) == (iv, j)) = false := by
          simp [Prod.ext_iff, ha]
        have h2 : (a == j) = false := by simp [ha]
        simp [h1, h2]
    · have h1 : ((iv, a) == (i, j)) = false := by
        simp [Prod.ext_iff, hiv]
      simp [h1, hiv]

theorem count_workerWrites (ncols nrows sx sy x y i j : Nat) :
    (workerWrites ncols nrows sx sy x y).count (i, j) =
      (stridedLoop x ncols sx).count i * (stridedLoop y nrows sy).count j := by
  rw [workerWrites, List.count_flatMap]
  have h1 : (List.count (i, j) ∘ fun iv => (stridedLoop y nrows sy).map fun j2 => (iv, j2))
      = fun iv => if iv = i then (stridedLoop y nrows sy).count j else 0 := by
    funext iv
    simp only [Function.comp_apply]
    exact count_pair_map iv i j (stridedLoop y nrows sy)
  rw [h1]
  induction (stridedLoop x ncols sx) with
  | nil => simp
  | cons a t ih =>
    simp only [List.map_cons, List.sum_cons, List.count_cons, ih]
    by_cases ha : a = i
    · subst ha
      simp only [if_pos rfl, beq_self_eq_true, if_true, Nat.add_mul, Nat.one_mul]
      omega
    · have h2 : (a == i) = false := by simp [ha]
      simp [ha, h2]

theorem sum_map_range (n : Nat) (f : Nat → Nat) :
    ((List.range n).map f).sum = ∑ x ∈ Finset.range n, f x := by
  induction n with
  | zero => simp
  | succ n ih =>
    rw [List.range_succ, List.map_append, List.sum_append, Finset.sum_range_succ, ih]
    simp

theorem count_allWrites (ncols nrows sx sy i j : Nat) (hsx : 0 < sx)
    (hsy : 0 < sy) (hi : i < ncols) (hj : j < nrows) :
    (allWrites ncols nrows sx sy).count (i, j) = 1 := by
  rw [allWrites, List.count_flatMap]
  have h1 : (List.count (i, j) ∘ fun x =>
      (List.range sy).flatMap fun y => workerWrites ncols nrows sx sy x y)
      = fun x => (stridedLoop x ncols sx).count i *
          ∑ y ∈ Finset.range sy, (stridedLoop y nrows sy).count j := by
    funext x
    simp only [Function.comp_apply]
    rw [List.count_flatMap]
    have h2 : (List.count (i, j) ∘ fun y => workerWrites ncols nrows sx sy x y)
        = fun y => (stridedLoop x ncols sx).count i * (stridedLoop y nrows sy).count j := by
      funext y
      simp only [Function.comp_apply]
      exact count_workerWrites ncols nrows sx sy x y i j
    rw [h2, List.sum_map_mul_left, sum_map_range]
  rw [h1]
  have h3 : ∀ x, (stridedLoop x ncols sx).count i *
      (∑ y ∈ Finset.range sy, (stridedLoop y nrows sy).count j)
      = (stridedLoop x ncols sx).count i := by
    intro x
    rw [sum_count_stridedLoop sy nrows j hsy hj, Nat.mul_one]
  simp only [h3]
  rw [sum_map_range]
  exact sum_count_stridedLoop sx ncols i hsx hi

theorem pair_mem_allWrites (ncols nrows sx sy i j : Nat) (hsx : 0 < sx)
    (hsy : 0 < sy) (hi : i < ncols) (hj : j < nrows) :
    (i, j) ∈ allWrites ncols nrows sx sy := by
  rw [← List.count_pos_iff, count_allWrites ncols nrows sx sy i j hsx hsy hi hj]
  omega

theorem foldl_applyValueWrite_eq {α : Type} (input : Nat → Nat → α)
    (l : List (Nat × Nat)) (g : Nat → Nat → α) (i j : Nat)
    (h : (i, j) ∈ l ∨ g j i = input i j) :
    (l.foldl (applyValueWrite input) g) j i = input i j := by
  induction l generalizing g with
  | nil =>
    rcases h with h1 | h1
    · simp at h1
    · simpa using h1
  | cons p t ih =>
    rw [List.foldl_cons]
    apply ih
    by_cases hp : p = (i, j)
    · right
      subst hp
      simp [applyValueWrite]
    · rcases h with h1 | h1
      · rcases List.mem_cons.mp h1 with h2 | h2
        · exact absurd h2.symm hp
        · left
          exact h2
      · right
        rw [applyValueWrite]
        have hne : ¬ (j = p.2 ∧ i = p.1) := by
          intro ⟨hj2, hi2⟩
          apply hp
          rw [Prod.ext_iff]
          exact ⟨hi2.symm, hj2.symm⟩
        rw [if_neg hne]
        exact h1

theorem gpu_transpose_run_correct {α : Type} (input : Nat → Nat → α)
    (ncols nrows sx sy : Nat) (out0 : Nat → Nat → α) (i j : Nat)
    (hsx : 0 < sx) (hsy : 0 < sy) (hi : i < ncols) (hj : j < nrows) :
    gpu_transpose_run input ncols nrows sx sy out0 j i = input i j := by
  rw [gpu_transpose_run]
  exact foldl_applyValueWrite_eq input _ out0 i j
    (Or.inl (pair_mem_allWrites ncols nrows sx sy i j hsx hsy hi hj))

/-! ## Characterizing the validity kernel: the active mask stays the exact
band prefix, and every (row, word) cell is written exactly once with the
balloted word -/

theorem ballot32_activeMask_step (ncols w w2 : Nat) (hw : w ≤ w2) :
    ballot32 (activeMask ncols (32 * w)) (fun l => decide (32 * w2 + l < ncols))
      = activeMask ncols (32 * w2) := by
  have hmap : ((List.range 32).map fun l =>
        (activeMask ncols (32 * w)).testBit l && decide (32 * w2 + l < ncols))
      = (List.range 32).map fun l => fullMask.testBit l && decide (32 * w2 + l < ncols) := by
    apply List.map_congr_left
    intro l hl
    rw [List.mem_range] at hl
    rw [testBit_activeMask ncols (32 * w) l hl, testBit_fullMask]
    by_cases h2 : 32 * w2 + l < ncols
    · have h1 : 32 * w + l < ncols := by omega
      simp [h1, h2, hl]
    · simp [h2]
  rw [ballot32, hmap]
  rfl

theorem warpValidsLoop_eq (valid : Nat → Nat → Bool)
    (ncols nrows sy y0 G w : Nat) (hG : 0 < G) :
    warpValidsLoop valid ncols nrows sy y0 G (activeMask ncols (32 * w)) w =
      (stridedLoop w (divRoundingUp ncols 32) G).flatMap fun w2 =>
        (stridedLoop y0 nrows sy).map fun j =>
          (j, w2, resWord valid ncols w2 j, wordNulls valid ncols w2 j) := by
  rw [warpValidsLoop]
  conv_rhs => rw [stridedLoop]
  by_cases hw : 32 * w < ncols
  · have hw2 : w < divRoundingUp ncols 32 := by unfold divRoundingUp; omega
    rw [dif_pos ⟨hw, hG⟩, dif_pos ⟨hw2, hG⟩, List.flatMap_cons]
    congr 1
    rw [ballot32_activeMask_step ncols w (w + G) (by omega)]
    exact warpValidsLoop_eq valid ncols nrows sy y0 G (w + G) hG
  · have hw2 : ¬ w < divRoundingUp ncols 32 := by unfold divRoundingUp; omega
    rw [dif_neg (by omega), dif_neg (by omega)]
    simp
termination_by ncols - 32 * w
decreasing_by omega

theorem warpValidsRun_eq (valid : Nat → Nat → Bool)
    (ncols nrows sy G bx y0 : Nat) (hG : 0 < G) :
    warpValidsRun valid ncols nrows sy G bx y0 =
      (stridedLoop bx (divRoundingUp ncols 32) G).flatMap fun w2 =>
        (stridedLoop y0 nrows sy).map fun j =>
          (j, w2, resWord valid ncols w2 j, wordNulls valid ncols w2 j) := by
  rw [warpValidsRun]
  exact warpValidsLoop_eq valid ncols nrows sy y0 G bx hG

theorem validsWrite_shape (valid : Nat → Nat → Bool) (ncols nrows G sy : Nat)
    (hG : 0 < G) (it : ValidWrite)
    (hit : it ∈ validsAllWrites valid ncols nrows G sy) :
    it = (it.1, it.2.1, resWord valid ncols it.2.1 it.1,
        wordNulls valid ncols it.2.1 it.1)
      ∧ it.2.1 < divRoundingUp ncols 32 ∧ it.1 < nrows := by
  rw [validsAllWrites, List.mem_flatMap] at hit
  obtain ⟨bx, _, hit⟩ := hit
  rw [List.mem_flatMap] at hit
  obtain ⟨y0, _, hit⟩ := hit
  rw [warpValidsRun_eq valid ncols nrows sy G bx y0 hG, List.mem_flatMap] at hit
  obtain ⟨w2, hw2, hit⟩ := hit
  rw [List.mem_map] at hit
  obtain ⟨j, hjmem, heq⟩ := hit
  subst heq
  exact ⟨rfl, lt_of_mem_stridedLoop hw2, lt_of_mem_stridedLoop hjmem⟩

theorem validsWrite_mem (valid : Nat → Nat → Bool) (ncols nrows G sy w j : Nat)
    (hG : 0 < G) (hsy : 0 < sy) (hw : w < divRoundingUp ncols 32)
    (hj : j < nrows) :
    (j, w, resWord valid ncols w j, wordNulls valid ncols w j)
      ∈ validsAllWrites valid ncols nrows G sy := by
  rw [validsAllWrites, List.mem_flatMap]
  refine ⟨w % G, List.mem_range.mpr (Nat.mod_lt w hG), ?_⟩
  rw [List.mem_flatMap]
  refine ⟨j % sy, List.mem_range.mpr (Nat.mod_lt j hsy), ?_⟩
  rw [warpValidsRun_eq valid ncols nrows sy G (w % G) (j % sy) hG,
    List.mem_flatMap]
  refine ⟨w, self_mem_stridedLoop G _ w hG hw, ?_⟩
  rw [List.mem_map]
  exact ⟨j, self_mem_stridedLoop sy nrows j hsy hj, rfl⟩

theorem applyValidsWrites_not_mem (ws : List ValidWrite) :
    ∀ (m0 : Nat → Nat → Nat) (j w : Nat),
    (∀ it ∈ ws, ¬ (it.1 = j ∧ it.2.1 = w)) →
    applyValidsWrites ws m0 j w = m0 j w := by
  induction ws with
  | nil => intro m0 j w _; rfl
  | cons p t ih =>
    intro m0 j w h
    show applyValidsWrites t
      (fun j2 w2 => if j2 = p.1 ∧ w2 = p.2.1 then p.2.2.1 else m0 j2 w2) j w = m0 j w
    rw [ih _ j w fun it hit => h it (List.mem_cons_of_mem p hit)]
    have hcond : ¬ (j = p.1 ∧ w = p.2.1) := by
      rintro ⟨h1, h2⟩
      exact h p (List.mem_cons_self p t) ⟨h1.symm, h2.symm⟩
    rw [if_neg hcond]

theorem applyValidsWrites_eq (ws : List ValidWrite) :
    ∀ (m0 : Nat → Nat → Nat) (j w V : Nat),
    (∀ it ∈ ws, it.1 = j → it.2.1 = w → it.2.2.1 = V) →
    (∃ it ∈ ws, it.1 = j ∧ it.2.1 = w) →
    applyValidsWrites ws m0 j w = V := by
  induction ws with
  | nil =>
    intro m0 j w V _ hmem
    obtain ⟨it, hit, _⟩ := hmem
    simp at hit
  | cons p t ih =>
    intro m0 j w V hcanon hmem
    show applyValidsWrites t
      (fun j2 w2 => if j2 = p.1 ∧ w2 = p.2.1 then p.2.2.1 else m0 j2 w2) j w = V
    by_cases htail : ∃ it ∈ t, it.1 = j ∧ it.2.1 = w
    · exact ih _ j w V
        (fun it hit h1 h2 => hcanon it (List.mem_cons_of_mem p hit) h1 h2) htail
    · obtain ⟨it, hit, h1, h2⟩ := hmem
      rcases List.mem_cons.mp hit with hip | hip
      · subst hip
        rw [applyValidsWrites_not_mem t _ j w
          fun it2 hit2 hc => htail ⟨it2, hit2, hc⟩]
        rw [if_pos ⟨h1.symm, h2.symm⟩]
        exact hcanon it (List.mem_cons_self it t) h1 h2
      · exact absurd ⟨it, hip, h1, h2⟩ htail

theorem finalMaskWords_eq (valid : Nat → Nat → Bool) (ncols nrows G sy j w : Nat)
    (hG : 0 < G) (hsy : 0 < sy) (hw : w < divRoundingUp ncols 32)
    (hj : j < nrows) :
    finalMaskWords valid ncols nrows G sy j w = resWord valid ncols w j := by
  rw [finalMaskWords]
  apply applyValidsWrites_eq _ _ j w
  · intro it hit h1 h2
    have hshape := (validsWrite_shape valid ncols nrows G sy hG it hit).1
    have hval : it.2.2.1 = resWord valid ncols it.2.1 it.1 := by rw [hshape]
    rw [hval, h1, h2]
  · exact ⟨(j, w, resWord valid ncols w j, wordNulls valid ncols w j),
      validsWrite_mem valid ncols nrows G sy w j hG hsy hw hj, rfl, rfl⟩

/-! ## The accumulator: summed atomic contributions equal the per-row null
count -/

theorem nullAccum_foldl (ws : List ValidWrite) :
    ∀ (a : Nat → Nat) (j : Nat),
    (ws.foldl (fun acc wr => fun j2 =>
        if j2 = wr.1 then acc j2 + wr.2.2.2 else acc j2) a) j
      = a j + (ws.map fun it => if it.1 = j then it.2.2.2 else 0).sum := by
  induction ws with
  | nil => intro a j; simp
  | cons p t ih =>
    intro a j
    rw [List.foldl_cons, ih, List.map_cons, List.sum_cons]
    by_cases hp : p.1 = j
    · rw [if_pos hp, if_pos hp.symm]
      omega
    · rw [if_neg hp, if_neg fun h => hp h.symm]
      omega

theorem nullAccum_eq_sum (ws : List ValidWrite) (j : Nat) :
    nullAccum ws j = (ws.map fun it => if it.1 = j then it.2.2.2 else 0).sum := by
  rw [nullAccum, nullAccum_foldl ws (fun _ => 0) j, Nat.zero_add]

theorem sum_map_flatMap {β γ : Type} (l : List β) (f : β → List γ) (g : γ → Nat) :
    ((l.flatMap f).map g).sum = (l.map fun x => ((f x).map g).sum).sum := by
  induction l with
  | nil => simp
  | cons a t ih =>
    simp only [List.flatMap_cons, List.map_append, List.sum_append, ih,
      List.map_cons, List.sum_cons]

theorem sum_map_ite_count (l : List Nat) (t : Nat) (c : Nat → Nat) :
    (l.map fun x => if x = t then c x else 0).sum = l.count t * c t := by
  induction l with
  | nil => simp
  | cons a tl ih =>
    rw [List.map_cons, List.sum_cons, ih, List.count_cons]
    by_cases ha : a = t
    · subst ha
      simp only [if_pos rfl, beq_self_eq_true, if_true]
      rw [Nat.add_mul, Nat.one_mul]
      omega
    · have h2 : (a == t) = false := by simp [ha]
      rw [if_neg ha, h2]
      simp

theorem list_sum_map_eq (l : List Nat) (h : Nat → Nat) (N : Nat)
    (hb : ∀ x ∈ l, x < N) :
    (l.map h).sum = ∑ w ∈ Finset.range N, l.count w * h w := by
  induction l with
  | nil => simp
  | cons a t ih =>
    rw [List.map_cons, List.sum_cons, ih fun x hx => hb x (List.mem_cons_of_mem a hx)]
    have hstep : ∀ w ∈ Finset.range N, (a :: t).count w * h w
        = t.count w * h w + (if w = a then h w else 0) := by
      intro w _
      rw [List.count_cons]
      by_cases haw : a = w
      · subst haw
        simp [Nat.add_mul]
      · have h2 : (a == w) = false := by simp [haw]
        have h3 : ¬ (w = a) := fun hc => haw hc.symm
        rw [h2, if_neg h3]
        simp
    rw [Finset.sum_congr rfl hstep, Finset.sum_add_distrib,
      Finset.sum_ite_eq' (Finset.range N) a h,
      if_pos (Finset.mem_range.mpr (hb a (List.mem_cons_self a t)))]
    omega

theorem warp_sum (valid : Nat → Nat → Bool) (ncols nrows sy G bx y0 j : Nat)
    (hG : 0 < G) :
    ((warpValidsRun valid ncols nrows sy G bx y0).map
        fun it => if it.1 = j then it.2.2.2 else 0).sum
      = (stridedLoop y0 nrows sy).count j *
          ((stridedLoop bx (divRoundingUp ncols 32) G).map
            fun w2 => wordNulls valid ncols w2 j).sum := by
  rw [warpValidsRun_eq valid ncols nrows sy G bx y0 hG, sum_map_flatMap]
  have hx : ∀ w2 : Nat,
      (((stridedLoop y0 nrows sy).map fun j2 =>
          ((j2, w2, resWord valid ncols w2 j2, wordNulls valid ncols w2 j2) :
            ValidWrite)).map fun it => if it.1 = j then it.2.2.2 else 0).sum
        = (stridedLoop y0 nrows sy).count j * wordNulls valid ncols w2 j := by
    intro w2
    rw [List.map_map]
    have hcomp : ((fun it : ValidWrite => if it.1 = j then it.2.2.2 else 0) ∘
        fun j2 => ((j2, w2, resWord valid ncols w2 j2,
          wordNulls valid ncols w2 j2) : ValidWrite))
        = fun j2 => if j2 = j then wordNulls valid ncols w2 j2 else 0 := rfl
    rw [hcomp, sum_map_ite_count]
  simp only [hx]
  rw [List.sum_map_mul_left]

theorem nullAccum_eq_bands (valid : Nat → Nat → Bool) (ncols nrows G sy j : Nat)
    (hG : 0 < G) (hsy : 0 < sy) (hj : j < nrows) :
    nullAccum (validsAllWrites valid ncols nrows G sy) j
      = ∑ w ∈ Finset.range (divRoundingUp ncols 32), wordNulls valid ncols w j := by
  rw [nullAccum_eq_sum, validsAllWrites, sum_map_flatMap]
  have h1 : ∀ bx : Nat, (((List.range sy).flatMap fun y0 =>
        warpValidsRun valid ncols nrows sy G bx y0).map
          fun it => if it.1 = j then it.2.2.2 else 0).sum
      = ((List.range sy).map fun y0 => (stridedLoop y0 nrows sy).count j).sum *
        ((stridedLoop bx (divRoundingUp ncols 32) G).map
          fun w2 => wordNulls valid ncols w2 j).sum := by
    intro bx
    rw [sum_map_flatMap]
    have h2 : ∀ y0 : Nat, ((warpValidsRun valid ncols nrows sy G bx y0).map
          fun it => if it.1 = j then it.2.2.2 else 0).sum
        = (stridedLoop y0 nrows sy).count j *
          ((stridedLoop bx (divRoundingUp ncols 32) G).map
            fun w2 => wordNulls valid ncols w2 j).sum :=
      fun y0 => warp_sum valid ncols nrows sy G bx y0 j hG
    simp only [h2]
    rw [List.sum_map_mul_right]
  simp only [h1]
  have hrow : ((List.range sy).map fun y0 => (stridedLoop y0 nrows sy).count j).sum
      = 1 := by
    rw [sum_map_range]
    exact sum_count_stridedLoop sy nrows j hsy hj
  simp only [hrow, Nat.one_mul]
  have hband : ∀ bx : Nat, ((stridedLoop bx (divRoundingUp ncols 32) G).map
        fun w2 => wordNulls valid ncols w2 j).sum
      = ∑ w ∈ Finset.range (divRoundingUp ncols 32),
          (stridedLoop bx (divRoundingUp ncols 32) G).count w *
            wordNulls valid ncols w j :=
    fun bx => list_sum_map_eq _ _ _ fun x hx => lt_of_mem_stridedLoop hx
  simp only [hband]
  rw [sum_map_range, Finset.sum_comm]
  apply Finset.sum_congr rfl
  intro w hw
  rw [Finset.mem_range] at hw
  rw [← Finset.sum_mul, sum_count_stridedLoop G (divRoundingUp ncols 32) w hG hw,
    Nat.one_mul]

theorem cntN_eq_sum (n : Nat) (p : Nat → Bool) :
    cntN n p = ∑ i ∈ Finset.range n, if p i then 1 else 0 := by
  induction n with
  | zero => simp [cntN]
  | succ n ih =>
    rw [cntN, List.range_succ, List.countP_append, Finset.sum_range_succ, ← cntN, ih]
    simp [List.countP_cons]

theorem cntN_succ (n : Nat) (p : Nat → Bool) :
    cntN (n + 1) p = cntN n p + if p n then 1 else 0 := by
  rw [cntN, List.range_succ, List.countP_append, ← cntN]
  simp [List.countP_cons]

theorem cntN_add (a b : Nat) (p : Nat → Bool) :
    cntN (a + b) p = cntN a p + cntN b fun x => p (a + x) := by
  induction b with
  | zero => simp [cntN]
  | succ b ih =>
    have hs : a + (b + 1) = (a + b) + 1 := by omega
    rw [hs, cntN_succ, ih, cntN_succ]
    simp [Nat.add_assoc]

theorem band_split (W : Nat) (Q : Nat → Bool) :
    ∑ w ∈ Finset.range W, cntN 32 (fun l => Q (32 * w + l)) = cntN (32 * W) Q := by
  induction W with
  | zero => simp [cntN]
  | succ W ih =>
    rw [Finset.sum_range_succ, ih, Nat.mul_succ, cntN_add]

theorem sum_wordNulls (valid : Nat → Nat → Bool) (ncols j : Nat) :
    ∑ w ∈ Finset.range (divRoundingUp ncols 32), wordNulls valid ncols w j
      = cntN ncols fun i => ! valid i j := by
  have h1 : ∀ w ∈ Finset.range (divRoundingUp ncols 32),
      wordNulls valid ncols w j
        = cntN 32 fun l => decide (32 * w + l < ncols) && ! valid (32 * w + l) j :=
    fun w _ => wordNulls_eq valid ncols w j
  rw [Finset.sum_congr rfl h1]
  have h2 : ∑ w ∈ Finset.range (divRoundingUp ncols 32),
      cntN 32 (fun l => decide (32 * w + l < ncols) && ! valid (32 * w + l) j)
        = cntN (32 * divRoundingUp ncols 32)
            fun i => decide (i < ncols) && ! valid i j :=
    band_split (divRoundingUp ncols 32) fun i => decide (i < ncols) && ! valid i j
  rw [h2]
  have hle : ncols ≤ 32 * divRoundingUp ncols 32 := by unfold divRoundingUp; omega
  have hsplit : 32 * divRoundingUp ncols 32
      = ncols + (32 * divRoundingUp ncols 32 - ncols) := by omega
  rw [hsplit, cntN_add]
  have hzero : cntN (32 * divRoundingUp ncols 32 - ncols)
      (fun x => decide (ncols + x < ncols) && ! valid (ncols + x) j) = 0 := by
    rw [cntN]
    rw [List.countP_eq_zero]
    intro a _
    simp
  rw [hzero, Nat.add_zero, cntN, cntN]
  apply List.countP_congr
  intro i hi
  rw [List.mem_range] at hi
  simp [hi]

theorem cnt_double_swap (nrows ncols : Nat) (P : Nat → Nat → Bool) :
    ∑ j ∈ Finset.range nrows, cntN ncols (fun i => P i j)
      = ∑ i ∈ Finset.range ncols, cntN nrows fun j => P i j := by
  simp only [cntN_eq_sum]
  exact Finset.sum_comm

/-! ## Engine-level lemmas -/

theorem transpose_eq_body {α : Type} (dflt : α) (T : Table α)
    (h1 : T.cols.length ≠ 0) (h2 : T.num_rows ≠ 0)
    (hhom : ∀ c ∈ T.cols, c.dtype = (T.column 0).dtype)
    (hfw : (T.column 0).dtype.is_fixed_width = true) :
    transpose dflt T = Except.ok (transposeBody dflt T) := by
  have hor : ¬ (T.cols.length = 0 ∨ T.num_rows = 0) := not_or.mpr ⟨h1, h2⟩
  have hall : (T.cols.all fun c => decide (c.dtype = (T.column 0).dtype)) = true := by
    rw [List.all_eq_true]
    intro c hc
    exact decide_eq_true (hhom c hc)
  simp only [transpose, if_neg hor, hall, if_true, hfw]

theorem gridX_pos {α : Type} (T : Table α) (hc : 0 < T.cols.length) :
    0 < gridX T := by
  rw [gridX, MAX_GRID_SIZE]
  unfold divRoundingUp
  omega

theorem gridY_pos {α : Type} (T : Table α) (hr : 0 < T.num_rows) :
    0 < gridY T := by
  rw [gridY, MAX_GRID_SIZE]
  unfold divRoundingUp
  omega

theorem transposeBody_cols_length {α : Type} (dflt : α) (T : Table α) :
    (transposeBody dflt T).cols.length = T.num_rows := by
  simp [transposeBody]

theorem transposeBody_column {α : Type} (dflt : α) (T : Table α) (j : Nat)
    (hj : j < T.num_rows) :
    (transposeBody dflt T).column j = outColumn dflt T j := by
  rw [transposeBody, Table.column]
  exact getD_map_range _ _ _ _ hj

theorem outColumn_dtype {α : Type} (dflt : α) (T : Table α) (j : Nat) :
    (outColumn dflt T j).dtype = (T.column 0).dtype := rfl

theorem outColumn_data_length {α : Type} (dflt : α) (T : Table α) (j : Nat) :
    (outColumn dflt T j).data.length = T.cols.length := by
  simp [outColumn]

theorem outColumn_data_getD {α : Type} (dflt : α) (T : Table α) (i j : Nat)
    (hi : i < T.cols.length) (hj : j < T.num_rows) :
    (outColumn dflt T j).data.getD i dflt = (T.column i).data.getD j dflt := by
  have hsx : 0 < 32 * gridX T := by
    have := gridX_pos T (by omega)
    omega
  have hsy : 0 < 32 * gridY T := by
    have := gridY_pos T (by omega)
    omega
  show ((List.range T.cols.length).map fun i2 =>
    gpu_transpose_run (tableVals dflt T) T.cols.length T.num_rows
      (32 * gridX T) (32 * gridY T) (fun _ _ => dflt) j i2).getD i dflt = _
  rw [getD_map_range _ _ _ _ hi]
  rw [gpu_transpose_run_correct (tableVals dflt T) T.cols.length T.num_rows
    (32 * gridX T) (32 * gridY T) (fun _ _ => dflt) i j hsx hsy hi hj]
  rfl

theorem outColumn_mask_of_has_nulls {α : Type} (dflt : α) (T : Table α)
    (j : Nat) (hn : has_nulls T = true) :
    (outColumn dflt T j).mask
      = some ((List.range T.cols.length).map fun i =>
          (finalMaskWords (tableValids T) T.cols.length T.num_rows (gridX T)
            (32 * gridY T) j (i / 32)).testBit (i % 32)) := by
  simp [outColumn, hn]

theorem outColumn_mask_of_no_nulls {α : Type} (dflt : α) (T : Table α)
    (j : Nat) (hn : has_nulls T = false) :
    (outColumn dflt T j).mask = none := by
  simp [outColumn, hn]

theorem outColumn_null_count_of_has_nulls {α : Type} (dflt : α) (T : Table α)
    (j : Nat) (hn : has_nulls T = true) :
    (outColumn dflt T j).null_count
      = nullAccum (validsAllWrites (tableValids T) T.cols.length T.num_rows
          (gridX T) (32 * gridY T)) j := by
  simp [outColumn, hn]

theorem outColumn_null_count_of_no_nulls {α : Type} (dflt : α) (T : Table α)
    (j : Nat) (hn : has_nulls T = false) :
    (outColumn dflt T j).null_count = 0 := by
  simp [outColumn, hn]

theorem outColumn_mask_bit {α : Type} (dflt : α) (T : Table α) (i j : Nat)
    (hn : has_nulls T = true) (hi : i < T.cols.length) :
    (outColumn dflt T j).mask_bit i
      = (finalMaskWords (tableValids T) T.cols.length T.num_rows (gridX T)
          (32 * gridY T) j (i / 32)).testBit (i % 32) := by
  rw [Column.mask_bit, outColumn_mask_of_has_nulls dflt T j hn, Option.getD_some]
  exact getD_map_range _ _ _ _ hi

theorem transposeBody_num_rows {α : Type} (dflt : α) (T : Table α)
    (hr : 0 < T.num_rows) :
    (transposeBody dflt T).num_rows = T.cols.length := by
  obtain ⟨k, hk⟩ : ∃ k, T.num_rows = k + 1 := ⟨T.num_rows - 1, by omega⟩
  rw [transposeBody, hk, List.range_succ_eq_map, List.map_cons]
  show (outColumn dflt T 0).data.length = T.cols.length
  exact outColumn_data_length dflt T 0

theorem outColumn_null_count_eq_row_nulls {α : Type} (dflt : α) (T : Table α)
    (j : Nat) (hn : has_nulls T = true) (hc : 0 < T.cols.length)
    (hr : 0 < T.num_rows) (hj : j < T.num_rows) :
    (outColumn dflt T j).null_count
      = cntN T.cols.length fun i => ! (T.column i).is_valid j := by
  rw [outColumn_null_count_of_has_nulls dflt T j hn]
  have hsy : 0 < 32 * gridY T := by
    have := gridY_pos T hr
    omega
  rw [nullAccum_eq_bands (tableValids T) T.cols.length T.num_rows (gridX T)
    (32 * gridY T) j (gridX_pos T hc) hsy hj]
  rw [sum_wordNulls (tableValids T) T.cols.length j]
  rfl

theorem sum_map_eq_sum_getD {β : Type} (l : List β) (f : β → Nat) (d : β) :
    (l.map f).sum = ∑ i ∈ Finset.range l.length, f (l.getD i d) := by
  induction l with
  | nil => simp
  | cons a t ih =>
    rw [List.map_cons, List.sum_cons, List.length_cons, Finset.sum_range_succ']
    simp only [List.getD_cons_succ, List.getD_cons_zero]
    rw [← ih]
    omega

theorem total_null_count_indexed {α : Type} (T : Table α)
    (hwf : ∀ c ∈ T.cols, c.data.length = T.num_rows) :
    T.total_null_count
      = ∑ i ∈ Finset.range T.cols.length,
          cntN T.num_rows fun j => ! (T.column i).is_valid j := by
  rw [Table.total_null_count,
    sum_map_eq_sum_getD T.cols _ ⟨DType.STRING, [], none, 0⟩]
  apply Finset.sum_congr rfl
  intro i hi
  rw [Finset.mem_range] at hi
  have hmem : T.cols.getD i ⟨DType.STRING, [], none, 0⟩ ∈ T.cols := by
    rw [List.getD_eq_getElem _ _ hi]
    exact List.getElem_mem hi
  rw [show T.cols.getD i ⟨DType.STRING, [], none, 0⟩ = T.column i from rfl] at hmem ⊢
  rw [hwf (T.column i) hmem]

theorem transposeBody_cols {α : Type} (dflt : α) (T : Table α) :
    (transposeBody dflt T).cols
      = (List.range T.num_rows).map fun j => outColumn dflt T j := rfl

theorem column_mem {α : Type} (T : Table α) (i : Nat)
    (hi : i < T.cols.length) : T.column i ∈ T.cols := by
  rw [Table.column, List.getD_eq_getElem _ _ hi]
  exact List.getElem_mem hi

/-! ## Claim theorems -/

/-- C6: for every input table with zero columns or zero rows, `transpose`
returns an empty table with 0 columns and 0 rows and does not raise an
error. -/
theorem transpose_degenerate_empty {α : Type} (dflt : α) (T : Table α)
    (h : T.cols.length = 0 ∨ T.num_rows = 0) :
    transpose dflt T = Except.ok (Table.mk []) ∧
    (Table.mk ([] : List (Column α))).cols.length = 0 ∧
    (Table.mk ([] : List (Column α))).num_rows = 0 := by
  refine ⟨?_, rfl, rfl⟩
  rw [transpose, if_pos h]

theorem transpose_degenerate_empty_witness :
    transpose (0 : Nat) exTable0 = Except.ok (Table.mk []) ∧
    (Table.mk ([] : List (Column Nat))).cols.length = 0 ∧
    (Table.mk ([] : List (Column Nat))).num_rows = 0 :=
  transpose_degenerate_empty 0 exTable0 (Or.inr rfl)

/-- C7: a non-empty input whose columns do not all share one element type
fails with `TypeMismatch`; a non-empty input whose common element type is
not fixed-width fails with `UnsupportedType`; in both cases the call
returns an error, so the caller receives no output table. -/
theorem transpose_precondition_errors {α : Type} :
    (∀ (dflt : α) (T : Table α), T.cols.length ≠ 0 → T.num_rows ≠ 0 →
      (¬ ∀ c ∈ T.cols, c.dtype = (T.column 0).dtype) →
      transpose dflt T = Except.error CudfError.TypeMismatch) ∧
    (∀ (dflt : α) (T : Table α), T.cols.length ≠ 0 → T.num_rows ≠ 0 →
      (∀ c ∈ T.cols, c.dtype = (T.column 0).dtype) →
      (T.column 0).dtype.is_fixed_width = false →
      transpose dflt T = Except.error CudfError.UnsupportedType) := by
  constructor
  · intro dflt T h1 h2 hmis
    have hor : ¬ (T.cols.length = 0 ∨ T.num_rows = 0) := not_or.mpr ⟨h1, h2⟩
    have hall : ¬ ((T.cols.all fun c => decide (c.dtype = (T.column 0).dtype)) = true) := by
      rw [List.all_eq_true]
      intro hforall
      exact hmis fun c hc => of_decide_eq_true (hforall c hc)
    simp only [transpose, if_neg hor]
    rw [if_neg hall]
  · intro dflt T h1 h2 hhom hfw
    have hor : ¬ (T.cols.length = 0 ∨ T.num_rows = 0) := not_or.mpr ⟨h1, h2⟩
    have hall : (T.cols.all fun c => decide (c.dtype = (T.column 0).dtype)) = true := by
      rw [List.all_eq_true]
      intro c hc
      exact decide_eq_true (hhom c hc)
    simp only [transpose, if_neg hor, hall, if_true]
    rw [if_neg (by simp [hfw])]

theorem transpose_precondition_errors_witness :
    transpose (0 : Nat) exTableMis = Except.error CudfError.TypeMismatch ∧
    transpose (0 : Nat) exTableStr = Except.error CudfError.UnsupportedType :=
  ⟨transpose_precondition_errors.1 0 exTableMis (by decide) (by decide) (by decide),
    transpose_precondition_errors.2 0 exTableStr (by decide) (by decide)
      (by decide) (by decide)⟩

/-- C8: a `mask_to_bools` call with length 0 returns an empty column for any
mask reference, absent included, without consulting the mask; a call with
positive length and an absent mask fails with `InvalidArgument`. -/
theorem mask_to_bools_degenerate :
    (∀ (bitmask : Option (List Nat)) (offset : Nat),
      mask_to_bools bitmask offset 0
        = Except.ok (Column.mk DType.BOOL8 [] none 0)) ∧
    (∀ (offset length : Nat), 0 < length →
      mask_to_bools none offset length
        = Except.error CudfError.InvalidArgument) := by
  constructor
  · intro bm off
    rfl
  · intro off len hlen
    rw [mask_to_bools, if_neg (by omega)]

theorem mask_to_bools_degenerate_witness :
    mask_to_bools none 5 0 = Except.ok (Column.mk DType.BOOL8 [] none 0) ∧
    mask_to_bools none 0 3 = Except.error CudfError.InvalidArgument :=
  ⟨mask_to_bools_degenerate.1 none 5, mask_to_bools_degenerate.2 0 3 (by decide)⟩

/-- C9: for a present mask and positive length, `mask_to_bools` succeeds
with a BOOL8 column of exactly the requested length carrying no mask of its
own, with `output[k] = bit_is_set(mask, offset + k)` for every position; in
particular over an all-set range it returns all-true values. -/
theorem mask_to_bools_correct (bm : List Nat) (offset length : Nat)
    (hlen : 0 < length) :
    mask_to_bools (some bm) offset length
      = Except.ok (mask_to_bools_ok bm offset length) ∧
    (mask_to_bools_ok bm offset length).data.length = length ∧
    (mask_to_bools_ok bm offset length).mask = none ∧
    (mask_to_bools_ok bm offset length).dtype = DType.BOOL8 ∧
    (∀ k, k < length → (mask_to_bools_ok bm offset length).data.getD k false
      = bit_is_set bm (offset + k)) ∧
    ((∀ k, k < length → bit_is_set bm (offset + k) = true) →
      (mask_to_bools_ok bm offset length).data = List.replicate length true) := by
  refine ⟨?_, by simp [mask_to_bools_ok], rfl, rfl, ?_, ?_⟩
  · rw [mask_to_bools, if_neg (by omega)]
  · intro k hk
    exact getD_map_range _ _ _ _ hk
  · intro hall
    have h1 : ∀ b ∈ (List.range length).map
        (fun index => bit_is_set bm (offset + index)), b = true := by
      intro b hb
      rw [List.mem_map] at hb
      obtain ⟨k, hk, hbk⟩ := hb
      rw [List.mem_range] at hk
      rw [← hbk]
      exact hall k hk
    have h2 := List.eq_replicate_of_mem h1
    show (List.range length).map (fun index => bit_is_set bm (offset + index))
      = List.replicate length true
    rw [h2]
    simp

theorem mask_to_bools_correct_witness :
    mask_to_bools (some [11]) 0 3 = Except.ok (mask_to_bools_ok [11] 0 3) ∧
    (mask_to_bools_ok [11] 0 3).data.length = 3 ∧
    (mask_to_bools_ok [11] 0 3).data.getD 1 false = bit_is_set [11] (0 + 1) := by
  have h := mask_to_bools_correct [11] 0 3 (by decide)
  exact ⟨h.1, h.2.1, h.2.2.2.2.1 1 (by decide)⟩

/-- C1: for every valid input table (homogeneous fixed-width type,
ncols > 0, nrows > 0) and all in-range `(i, j)`, the transposed table
satisfies `transpose(T).column(j).element(i) = T.column(i).element(j)`, and
the `(i, j)` cell is written by exactly one worker iteration of the strided
grid launched by `launch_kernel` — also when ncols or nrows exceed one grid
pass. -/
theorem transpose_element_correspondence {α : Type} (dflt : α) (T : Table α)
    (hc : 0 < T.cols.length) (hr : 0 < T.num_rows)
    (hhom : ∀ c ∈ T.cols, c.dtype = (T.column 0).dtype)
    (hfw : (T.column 0).dtype.is_fixed_width = true)
    (i j : Nat) (hi : i < T.cols.length) (hj : j < T.num_rows) :
    transpose dflt T = Except.ok (transposeBody dflt T) ∧
    ((transposeBody dflt T).column j).data.getD i dflt
      = (T.column i).data.getD j dflt ∧
    (allWrites T.cols.length T.num_rows (32 * gridX T)
      (32 * gridY T)).count (i, j) = 1 := by
  refine ⟨transpose_eq_body dflt T (by omega) (by omega) hhom hfw, ?_, ?_⟩
  · rw [transposeBody_column dflt T j hj]
    exact outColumn_data_getD dflt T i j hi hj
  · exact count_allWrites _ _ _ _ i j
      (by have := gridX_pos T hc; omega)
      (by have := gridY_pos T hr; omega) hi hj

theorem transpose_element_correspondence_witness :
    transpose (0 : Nat) exTable = Except.ok (transposeBody 0 exTable) ∧
    ((transposeBody (0 : Nat) exTable).column 2).data.getD 1 0
      = (exTable.column 1).data.getD 2 0 ∧
    (allWrites exTable.cols.length exTable.num_rows (32 * gridX exTable)
      (32 * gridY exTable)).count (1, 2) = 1 :=
  transpose_element_correspondence 0 exTable (by decide) (by decide)
    (by decide) (by decide) 1 2 (by decide) (by decide)

/-- C4: mask-policy uniformity. On the success path, if no input column has
nulls then every output column carries no validity mask and null count 0;
if any input column has nulls then every output column carries a mask, even
when its own null count is 0. -/
theorem transpose_mask_policy {α : Type} (dflt : α) (T : Table α)
    (hc : 0 < T.cols.length) (hr : 0 < T.num_rows)
    (hhom : ∀ c ∈ T.cols, c.dtype = (T.column 0).dtype)
    (hfw : (T.column 0).dtype.is_fixed_width = true) :
    transpose dflt T = Except.ok (transposeBody dflt T) ∧
    (has_nulls T = false → ∀ j, j < T.num_rows →
      ((transposeBody dflt T).column j).mask = none ∧
      ((transposeBody dflt T).column j).null_count = 0) ∧
    (has_nulls T = true → ∀ j, j < T.num_rows →
      ((transposeBody dflt T).column j).mask.isSome = true) := by
  refine ⟨transpose_eq_body dflt T (by omega) (by omega) hhom hfw, ?_, ?_⟩
  · intro hn j hj
    rw [transposeBody_column dflt T j hj]
    exact ⟨outColumn_mask_of_no_nulls dflt T j hn,
      outColumn_null_count_of_no_nulls dflt T j hn⟩
  · intro hn j hj
    rw [transposeBody_column dflt T j hj,
      outColumn_mask_of_has_nulls dflt T j hn]
    rfl

theorem transpose_mask_policy_witness :
    (((transposeBody (0 : Nat) exTable).column 1).mask = none ∧
      ((transposeBody (0 : Nat) exTable).column 1).null_count = 0) ∧
    ((transposeBody (0 : Nat) exTableN).column 2).mask.isSome = true := by
  refine ⟨(transpose_mask_policy 0 exTable (by decide) (by decide) (by decide)
      (by decide)).2.1 rfl 1 (by decide),
    (transpose_mask_policy 0 exTableN (by decide) (by decide) (by decide)
      (by decide)).2.2 rfl 2 (by decide)⟩

/-- C2: validity correspondence. For an input with nulls, bit `i` of the
stored validity mask of output column `j` equals the validity of
`T.column(i).element(j)`, and the kernel-written mask word at word index
`i / 32` packs the validity bits of the input-column band with bit position
equal to lane position within the 32-lane group. -/
theorem transpose_validity_correspondence {α : Type} (dflt : α) (T : Table α)
    (hc : 0 < T.cols.length) (hr : 0 < T.num_rows)
    (hhom : ∀ c ∈ T.cols, c.dtype = (T.column 0).dtype)
    (hfw : (T.column 0).dtype.is_fixed_width = true)
    (hn : has_nulls T = true)
    (i j : Nat) (hi : i < T.cols.length) (hj : j < T.num_rows) :
    transpose dflt T = Except.ok (transposeBody dflt T) ∧
    ((transposeBody dflt T).column j).mask_bit i = (T.column i).is_valid j ∧
    (∀ l, l < 32 →
      (finalMaskWords (tableValids T) T.cols.length T.num_rows (gridX T)
        (32 * gridY T) j (i / 32)).testBit l
        = (decide (32 * (i / 32) + l < T.cols.length) &&
            (T.column (32 * (i / 32) + l)).is_valid j)) := by
  have hG := gridX_pos T hc
  have hsy : 0 < 32 * gridY T := by
    have := gridY_pos T hr
    omega
  have hwlt : i / 32 < divRoundingUp T.cols.length 32 := by
    unfold divRoundingUp
    omega
  have hword := finalMaskWords_eq (tableValids T) T.cols.length T.num_rows
    (gridX T) (32 * gridY T) j (i / 32) hG hsy hwlt hj
  refine ⟨transpose_eq_body dflt T (by omega) (by omega) hhom hfw, ?_, ?_⟩
  · rw [transposeBody_column dflt T j hj, outColumn_mask_bit dflt T i j hn hi,
      hword, testBit_resWord (tableValids T) T.cols.length (i / 32) j (i % 32)
        (by omega)]
    have hidx : 32 * (i / 32) + i % 32 = i := Nat.div_add_mod i 32
    rw [hidx, decide_eq_true hi, Bool.true_and]
    rfl
  · intro l hl
    rw [hword, testBit_resWord _ _ _ _ _ hl]
    rfl

theorem transpose_validity_correspondence_witness :
    ((transposeBody (0 : Nat) exTableN).column 1).mask_bit 0
      = (exTableN.column 0).is_valid 1 ∧
    (finalMaskWords (tableValids exTableN) exTableN.cols.length
      exTableN.num_rows (gridX exTableN) (32 * gridY exTableN) 1
        (0 / 32)).testBit 1
      = (decide (32 * (0 / 32) + 1 < exTableN.cols.length) &&
          (exTableN.column (32 * (0 / 32) + 1)).is_valid 1) := by
  have h := transpose_validity_correspondence 0 exTableN (by decide)
    (by decide) (by decide) (by decide) (by decide) 0 1 (by decide) (by decide)
  exact ⟨h.2.1, h.2.2 1 (by decide)⟩

/-- C3: null conservation and exactness. For an input with nulls, the null
count set on output column `j` equals the number of null elements in input
row `j`, and the output null counts summed over all output columns equal
the total number of null elements of the input table. -/
theorem transpose_null_conservation {α : Type} (dflt : α) (T : Table α)
    (hc : 0 < T.cols.length) (hr : 0 < T.num_rows)
    (hhom : ∀ c ∈ T.cols, c.dtype = (T.column 0).dtype)
    (hfw : (T.column 0).dtype.is_fixed_width = true)
    (hn : has_nulls T = true)
    (hwf : ∀ c ∈ T.cols, c.data.length = T.num_rows) :
    transpose dflt T = Except.ok (transposeBody dflt T) ∧
    (∀ j, j < T.num_rows →
      ((transposeBody dflt T).column j).null_count
        = cntN T.cols.length fun i => ! (T.column i).is_valid j) ∧
    ((List.range T.num_rows).map fun j =>
        ((transposeBody dflt T).column j).null_count).sum
      = T.total_null_count := by
  have hperrow : ∀ j, j < T.num_rows →
      ((transposeBody dflt T).column j).null_count
        = cntN T.cols.length fun i => ! (T.column i).is_valid j := by
    intro j hj
    rw [transposeBody_column dflt T j hj]
    exact outColumn_null_count_eq_row_nulls dflt T j hn hc hr hj
  refine ⟨transpose_eq_body dflt T (by omega) (by omega) hhom hfw, hperrow, ?_⟩
  rw [sum_map_range]
  have hcong : ∀ j ∈ Finset.range T.num_rows,
      ((transposeBody dflt T).column j).null_count
        = cntN T.cols.length fun i => ! (T.column i).is_valid j :=
    fun j hj => hperrow j (Finset.mem_range.mp hj)
  rw [Finset.sum_congr rfl hcong]
  exact (cnt_double_swap T.num_rows T.cols.length
    fun i j => ! (T.column i).is_valid j).trans
      (total_null_count_indexed T hwf).symm

theorem transpose_null_conservation_witness :
    ((transposeBody (0 : Nat) exTableN).column 1).null_count
      = cntN exTableN.cols.length (fun i => ! (exTableN.column i).is_valid 1) ∧
    ((List.range exTableN.num_rows).map fun j =>
        ((transposeBody (0 : Nat) exTableN).column j).null_count).sum
      = exTableN.total_null_count := by
  have h := transpose_null_conservation 0 exTableN (by decide) (by decide)
    (by decide) (by decide) (by decide) (by decide)
  exact ⟨h.2.1 1 (by decide), h.2.2⟩

/-- C10: padding-bit guarantee of the validity kernel. Bits of a written
mask word standing beyond the last input column are written as 0; the
per-write null contribution is `popc(active) - popc(result)`, i.e. it
counts only lanes on real input columns whose element is invalid; hence
padding never inflates a null count: the accumulated count is exactly the
number of invalid entries of the row. -/
theorem gpu_transpose_valids_padding (valid : Nat → Nat → Bool)
    (ncols nrows G sy j w : Nat) (hG : 0 < G) (hsy : 0 < sy)
    (hj : j < nrows) (hw : w < divRoundingUp ncols 32) :
    (∀ l, l < 32 → ncols ≤ 32 * w + l →
      (finalMaskWords valid ncols nrows G sy j w).testBit l = false) ∧
    (∀ it ∈ validsAllWrites valid ncols nrows G sy,
      it.2.2.2 = cntN 32 fun l =>
        decide (32 * it.2.1 + l < ncols) && ! valid (32 * it.2.1 + l) it.1) ∧
    nullAccum (validsAllWrites valid ncols nrows G sy) j
      = cntN ncols fun i => ! valid i j := by
  refine ⟨?_, ?_, ?_⟩
  · intro l hl hpad
    rw [finalMaskWords_eq valid ncols nrows G sy j w hG hsy hw hj,
      testBit_resWord valid ncols w j l hl]
    have hd : decide (32 * w + l < ncols) = false := by
      simp only [decide_eq_false_iff_not]
      omega
    rw [hd, Bool.false_and]
  · intro it hit
    have hshape := (validsWrite_shape valid ncols nrows G sy hG it hit).1
    have hval : it.2.2.2 = wordNulls valid ncols it.2.1 it.1 := by rw [hshape]
    rw [hval, wordNulls_eq]
  · rw [nullAccum_eq_bands valid ncols nrows G sy j hG hsy hj, sum_wordNulls]

theorem gpu_transpose_valids_padding_witness :
    (finalMaskWords exValid 5 2 1 1 0 0).testBit 7 = false ∧
    nullAccum (validsAllWrites exValid 5 2 1 1) 0
      = cntN 5 fun i => ! exValid i 0 := by
  have h := gpu_transpose_valids_padding exValid 5 2 1 1 0 0 (by decide)
    (by decide) (by decide) (by decide)
  exact ⟨h.1 7 (by decide) (by decide), h.2.2⟩

/-- C5 counterexample: for a valid homogeneous fixed-width table with one
column and zero rows, `transpose(transpose(T))` is the empty table, whose
column count 0 differs from the column count 1 of the input, so the
round-trip claim fails as stated on degenerate tables. -/
theorem transpose_roundtrip_counterexample :
    transpose (0 : Nat) exTable0 = Except.ok (Table.mk []) ∧
    transpose (0 : Nat) (Table.mk ([] : List (Column Nat)))
      = Except.ok (Table.mk []) ∧
    (Table.mk ([] : List (Column Nat))).cols.length ≠ exTable0.cols.length := by
  refine ⟨rfl, rfl, by decide⟩

/-- C5 (amended): for every valid table with at least one column and at
least one row (homogeneous fixed-width type, columns of equal length),
`transpose(transpose(T))` has the same shape (column count and row count)
and the same element values as `T`. -/
theorem transpose_roundtrip {α : Type} (dflt : α) (T : Table α)
    (hc : 0 < T.cols.length) (hr : 0 < T.num_rows)
    (hhom : ∀ c ∈ T.cols, c.dtype = (T.column 0).dtype)
    (hfw : (T.column 0).dtype.is_fixed_width = true)
    (hwf : ∀ c ∈ T.cols, c.data.length = T.num_rows) :
    transpose dflt T = Except.ok (transposeBody dflt T) ∧
    transpose dflt (transposeBody dflt T)
      = Except.ok (transposeBody dflt (transposeBody dflt T)) ∧
    (transposeBody dflt (transposeBody dflt T)).cols.length = T.cols.length ∧
    (transposeBody dflt (transposeBody dflt T)).num_rows = T.num_rows ∧
    (∀ i, i < T.cols.length →
      ((transposeBody dflt (transposeBody dflt T)).column i).data.length
        = (T.column i).data.length ∧
      ∀ j, j < T.num_rows →
        ((transposeBody dflt (transposeBody dflt T)).column i).data.getD j dflt
          = (T.column i).data.getD j dflt) := by
  have hBlen : (transposeBody dflt T).cols.length = T.num_rows :=
    transposeBody_cols_length dflt T
  have hBrows : (transposeBody dflt T).num_rows = T.cols.length :=
    transposeBody_num_rows dflt T hr
  have hBcol : ∀ j, j < T.num_rows →
      (transposeBody dflt T).column j = outColumn dflt T j :=
    fun j hj => transposeBody_column dflt T j hj
  have hBhom : ∀ c ∈ (transposeBody dflt T).cols,
      c.dtype = ((transposeBody dflt T).column 0).dtype := by
    intro c hc2
    rw [transposeBody_cols dflt T, List.mem_map] at hc2
    obtain ⟨j, _, hceq⟩ := hc2
    rw [← hceq, outColumn_dtype, hBcol 0 hr, outColumn_dtype]
  have hBfw : ((transposeBody dflt T).column 0).dtype.is_fixed_width = true := by
    rw [hBcol 0 hr, outColumn_dtype]
    exact hfw
  refine ⟨transpose_eq_body dflt T (by omega) (by omega) hhom hfw,
    transpose_eq_body dflt (transposeBody dflt T) (by omega) (by omega)
      hBhom hBfw, ?_, ?_, ?_⟩
  · rw [transposeBody_cols_length dflt (transposeBody dflt T), hBrows]
  · rw [transposeBody_num_rows dflt (transposeBody dflt T) (by omega), hBlen]
  · intro i hi
    have hi2 : i < (transposeBody dflt T).num_rows := by omega
    constructor
    · rw [transposeBody_column dflt (transposeBody dflt T) i hi2,
        outColumn_data_length, hBlen, hwf (T.column i) (column_mem T i hi)]
    · intro j hj
      have hj2 : j < (transposeBody dflt T).cols.length := by omega
      rw [transposeBody_column dflt (transposeBody dflt T) i hi2,
        outColumn_data_getD dflt (transposeBody dflt T) j i hj2 hi2,
        hBcol j hj, outColumn_data_getD dflt T i j hi hj]

theorem transpose_roundtrip_witness :
    (transposeBody (0 : Nat) (transposeBody 0 exTable)).cols.length
      = exTable.cols.length ∧
    (transposeBody (0 : Nat) (transposeBody 0 exTable)).num_rows
      = exTable.num_rows ∧
    ((transposeBody (0 : Nat) (transposeBody 0 exTable)).column 1).data.length
      = (exTable.column 1).data.length ∧
    ((transposeBody (0 : Nat) (transposeBody 0 exTable)).column 1).data.getD 2 0
      = (exTable.column 1).data.getD 2 0 := by
  have h := transpose_roundtrip 0 exTable (by decide) (by decide) (by decide)
    (by decide) (by decide)
  exact ⟨h.2.2.1, h.2.2.2.1, (h.2.2.2.2 1 (by decide)).1,
    (h.2.2.2.2 1 (by decide)).2 2 (by decide)⟩

end Cudf
